import Mathlib

/-!
Shallow embedding of the import-graph analyzer in
`src/codeGen_challenge.py`: extraction of import pairs from Python
syntax trees (`parse_imports`), construction of a networkx-style
directed graph (`build_import_graph`), and the metrics computed by
`analyze_codebase` (node/edge counts, degree maxima, acyclicity).
-/

/-- Python's `str.replace(old, new)` over explicit character lists:
left-to-right, non-overlapping replacement of every occurrence of
`old` by `new`.  The extra `Nat` argument counts characters still to
be skipped because they were consumed by a match (this keeps the
recursion structural).  All call sites in the source use a non-empty
`old` (`".py"`, the path separator), which the guard assumes. -/
def pyReplaceAux (old new : List Char) : Nat → List Char → List Char
  | _, [] => []
  | k+1, _ :: rest => pyReplaceAux old new k rest
  | 0, c :: rest =>
    if old.isPrefixOf (c :: rest) ∧ old ≠ [] then
      new ++ pyReplaceAux old new (old.length - 1) rest
    else
      c :: pyReplaceAux old new 0 rest

/-- Python's `str.replace(old, new)`. -/
def pyReplace (old new s : List Char) : List Char :=
  pyReplaceAux old new 0 s

/-- Line 76 of the source:
`os.path.relpath(file_path, directory).replace('.py', '').replace(os.path.sep, '.')`,
on a POSIX system where `os.path.sep` is `'/'`.  Note the first
`replace` removes every occurrence of the substring `".py"`, not just
a trailing extension. -/
def moduleName (relpath : String) : String :=
  ⟨pyReplace ['.', 'p', 'y'] [] relpath.data |> pyReplace ['/'] ['.']⟩

/-- Python's `full_name.split('.')[0]`: the longest initial run of
characters before the first `'.'` (the whole string when there is no
dot).  Used at line 87 of the source to pick the edge target. -/
def topLevel (s : String) : String :=
  ⟨s.data.takeWhile (fun c => c != '.')⟩

/-- Python's `file.endswith('.py')` filter of the directory walk
(line 74 of the source). -/
def endswith (s suf : String) : Bool :=
  suf.data.isSuffixOf s.data

/-- The fragment of the Python abstract syntax tree that
`parse_imports` inspects: `Import` statements (a list of dotted
names), `ImportFrom` statements (an optional module — `none` for a
bare relative `from . import x` — and a list of imported names), and
every other node kind, of which only the children matter.  Children
model the bodies of `Module`, `FunctionDef`, `If`, ... so imports can
sit at any depth. -/
inductive Ast where
  | imp (names : List String) (children : List Ast)
  | impFrom (module : Option String) (names : List String) (children : List Ast)
  | other (children : List Ast)

/-- The child nodes of an AST node. -/
def Ast.children : Ast → List Ast
  | .imp _ cs => cs
  | .impFrom _ _ cs => cs
  | .other cs => cs

mutual

/-- Number of nodes of a tree (used as fuel for the breadth-first
walk). -/
def countNodes : Ast → Nat
  | .imp _ cs => 1 + countList cs
  | .impFrom _ _ cs => 1 + countList cs
  | .other cs => 1 + countList cs

/-- Total number of nodes of a forest. -/
def countList : List Ast → Nat
  | [] => 0
  | t :: ts => countNodes t + countList ts

end

/-- Breadth-first traversal queue of `ast.walk`, with explicit fuel:
each step emits the head of the queue and enqueues its children.
`walkF fuel q` emits every node as long as `fuel ≥ countList q`. -/
def walkF : Nat → List Ast → List Ast
  | 0, _ => []
  | _+1, [] => []
  | fuel+1, t :: rest => t :: walkF fuel (rest ++ t.children)

/-- `ast.walk(tree)`: every node of the tree, in breadth-first
order. -/
def walk (t : Ast) : List Ast :=
  walkF (countNodes t) [t]

/-- The import pairs contributed by one AST node (lines 59-65 of the
source): an `Import` yields `(alias.name, alias.name)` per alias; an
`ImportFrom` yields `((node.module or '') + "." + alias.name,
alias.name)` per alias; other nodes yield nothing. -/
def nodeImports : Ast → List (String × String)
  | .imp names _ => names.map (fun n => (n, n))
  | .impFrom module names _ => names.map (fun n => ((module.getD "") ++ "." ++ n, n))
  | .other _ => []

/-- Outcome of opening and `ast.parse`-ing one file, as seen by
`parse_imports`: a tree, a `SyntaxError`, or any other exception
(I/O, decoding, ...). -/
inductive ParseOutcome where
  | ok (tree : Ast)
  | syntaxError
  | ioError

/-- `parse_imports` (lines 46-67): on a successful parse, the
concatenation of each walked node's import pairs in walk order; on
`SyntaxError` or any other exception, the empty list. -/
def parse_imports : ParseOutcome → List (String × String)
  | .ok tree => (walk tree).flatMap nodeImports
  | .syntaxError => []
  | .ioError => []

/-- Outcome of `extract_code_snippet`'s file read: the snippet
(first ten lines) together with the description the external
text-generation service produced for it, or a read failure. -/
inductive ReadOutcome where
  | ok (snippet description : String)
  | err

/-- `extract_code_snippet` (lines 35-45): returns the snippet and its
description, or the fixed placeholder pair when the read raises. -/
def extract_code_snippet : ReadOutcome → String × String
  | .ok snippet description => (snippet, description)
  | .err => ("Unable to read file", "Description not available.")

/-- The node attribute dictionary networkx keeps per node: the
`snippet=` and `description=` keys set by `graph.add_node`; `none`
when the node was only ever created as an edge endpoint. -/
structure NodeAttrs where
  snippet : Option String
  description : Option String
deriving DecidableEq, Repr

/-- A `networkx.DiGraph` as used by the source: nodes in insertion
order with their attribute dictionaries, and at most one edge per
ordered pair of nodes, carrying the `symbol=` attribute.  Adding an
existing edge again overwrites its attribute. -/
structure DiGraph where
  nodes : List (String × NodeAttrs)
  edges : List (String × String × String)
deriving DecidableEq, Repr

namespace DiGraph

/-- `nx.DiGraph()`. -/
def empty : DiGraph := ⟨[], []⟩

/-- Whether `n` is already a node. -/
def hasNode (g : DiGraph) (n : String) : Bool :=
  g.nodes.any (fun e => e.1 == n)

/-- `graph.add_node(n, snippet=snip, description=desc)`: a new node
is appended; an existing node keeps its position and has both
attribute keys overwritten. -/
def add_node (g : DiGraph) (n snip desc : String) : DiGraph :=
  if g.hasNode n then
    { g with nodes := g.nodes.map (fun e => if e.1 == n then (e.1, ⟨some snip, some desc⟩) else e) }
  else
    { g with nodes := g.nodes ++ [(n, ⟨some snip, some desc⟩)] }

/-- networkx's implicit node creation when an edge endpoint is new:
the node is appended with an empty attribute dictionary. -/
def ensureNode (g : DiGraph) (n : String) : DiGraph :=
  if g.hasNode n then g else { g with nodes := g.nodes ++ [(n, ⟨none, none⟩)] }

/-- Whether the edge `u → v` is present. -/
def hasEdge (g : DiGraph) (u v : String) : Bool :=
  g.edges.any (fun e => e.1 == u && e.2.1 == v)

/-- `graph.add_edge(u, v, symbol=sym)`: both endpoints are created if
absent; a `u → v` edge that already exists has its `symbol` attribute
overwritten, otherwise the edge is appended.  A `DiGraph` holds at
most one edge per ordered pair. -/
def add_edge (g : DiGraph) (u v sym : String) : DiGraph :=
  if ((g.ensureNode u).ensureNode v).hasEdge u v then
    { (g.ensureNode u).ensureNode v with
      edges := ((g.ensureNode u).ensureNode v).edges.map
        (fun e => if e.1 == u && e.2.1 == v then (u, v, sym) else e) }
  else
    { (g.ensureNode u).ensureNode v with
      edges := ((g.ensureNode u).ensureNode v).edges ++ [(u, v, sym)] }

/-- `graph.number_of_nodes()`. -/
def number_of_nodes (g : DiGraph) : Nat := g.nodes.length

/-- `graph.number_of_edges()`. -/
def number_of_edges (g : DiGraph) : Nat := g.edges.length

/-- The ordered pairs of the edge list, without symbols. -/
def edgePairs (g : DiGraph) : List (String × String) :=
  g.edges.map (fun e => (e.1, e.2.1))

/-- `graph.out_degree(n)`: number of edges leaving `n`. -/
def out_degree (g : DiGraph) (n : String) : Nat :=
  (g.edges.filter (fun e => e.1 == n)).length

/-- `graph.in_degree(n)`: number of edges entering `n`. -/
def in_degree (g : DiGraph) (n : String) : Nat :=
  (g.edges.filter (fun e => e.2.1 == n)).length

/-- `graph.degree(n)` of a networkx `DiGraph`: in-degree plus
out-degree (a self-loop counts twice). -/
def degree (g : DiGraph) (n : String) : Nat :=
  g.in_degree n + g.out_degree n

end DiGraph

/-- Python's `max(iterable, key=f)` over strings with a `Nat` key:
the first element attaining the maximum key, `none` on an empty
list. -/
def maxByKey (f : String → Nat) (l : List String) : Option String :=
  l.foldl (fun acc n =>
    match acc with
    | none => some n
    | some m => if f n > f m then some n else some m) none

/-- `max(degrees, key=degrees.get) if degrees else "N/A"` from
`analyze_codebase` (line 185): the node of maximal total degree, with
the `"N/A"` sentinel on an empty graph. -/
def most_imported (g : DiGraph) : String :=
  (maxByKey (g.degree) (g.nodes.map Prod.fst)).getD "N/A"

/-- `max(in_degrees, key=in_degrees.get) if in_degrees else "N/A"`
from `analyze_codebase` (line 189): the node of maximal in-degree,
with the `"N/A"` sentinel on an empty graph. -/
def most_dependent (g : DiGraph) : String :=
  (maxByKey (g.in_degree) (g.nodes.map Prod.fst)).getD "N/A"

/-- One file yielded by the `os.walk` scan of `build_import_graph`:
its path relative to the scanned root (`'/'`-separated), the outcome
of `extract_code_snippet`'s read, and the outcome of
`parse_imports`'s open-and-parse. -/
structure ScannedFile where
  relpath : String
  read : ReadOutcome
  parsed : ParseOutcome

/-- The body of `build_import_graph`'s loop for one walked file
(lines 73-88): skip files not ending in `.py`; otherwise compute the
module name, add its node with snippet and description, and add one
edge per extracted import pair, from the module to the top-level
segment of the qualified name, labelled with the bound symbol. -/
def buildStep (g : DiGraph) (f : ScannedFile) : DiGraph :=
  if endswith f.relpath ".py" then
    (parse_imports f.parsed).foldl
      (fun g2 p => g2.add_edge (moduleName f.relpath) (topLevel p.1) p.2)
      (g.add_node (moduleName f.relpath)
        (extract_code_snippet f.read).1 (extract_code_snippet f.read).2)
  else g

/-- `build_import_graph` (lines 69-90), with the `os.walk` file
enumeration abstracted into the input list: fold the per-file step
over the walked files, starting from the empty graph. -/
def build_import_graph (files : List ScannedFile) : DiGraph :=
  files.foldl buildStep DiGraph.empty

/-- The edge relation of a graph: `EdgeRel g u v` holds when some
edge `u → v` is present. -/
def EdgeRel (g : DiGraph) (u v : String) : Prop :=
  (u, v) ∈ g.edgePairs

instance (g : DiGraph) (u v : String) : Decidable (EdgeRel g u v) := by
  unfold EdgeRel; infer_instance

/-- The list of edge targets reachable in one step from `u`. -/
def successors (g : DiGraph) (u : String) : List String :=
  g.edges.filterMap (fun e => if e.1 = u then some e.2.1 else none)

/-- One round of the reachability saturation: add every successor of
every member. -/
def stepR (g : DiGraph) (S : Finset String) : Finset String :=
  S ∪ S.biUnion (fun u => (successors g u).toFinset)

/-- Executable cycle test through `u`: saturate the successor set of
`u` for as many rounds as there are edges and test whether `u`
reappears. -/
def hasCycleFrom (g : DiGraph) (u : String) : Bool :=
  decide (u ∈ (stepR g)^[g.edges.length] (successors g u).toFinset)

/-- `nx.is_directed_acyclic_graph` (line 195 of the source), as the
standard reachability-based cycle check: the graph is acyclic when no
edge source can reach itself through the edges. -/
def is_directed_acyclic_graph (g : DiGraph) : Bool :=
  g.edges.all (fun e => !(hasCycleFrom g e.1))

/-- The set of all edge targets: every saturation round stays inside
it. -/
def targetSet (g : DiGraph) : Finset String :=
  (g.edges.map (fun e => e.2.1)).toFinset

/-- The node identities of a graph, in insertion order. -/
def nodeNames (g : DiGraph) : List String := g.nodes.map Prod.fst

/-- The attribute record of node `n`, when `n` is a node. -/
def lookupAttrs (g : DiGraph) (n : String) : Option NodeAttrs :=
  (g.nodes.find? (fun e => e.1 == n)).map Prod.snd

/-- The (source module, top-level target) pair of every import pair
extracted from one scanned file — the endpoints of the `add_edge`
calls its imports trigger. -/
def fileEdgePairs (f : ScannedFile) : List (String × String) :=
  (parse_imports f.parsed).map (fun p => (moduleName f.relpath, topLevel p.1))

/-- The (source module, top-level target) pairs of every import pair
of every scanned `.py` file, in scan order. -/
def allEdgePairs (files : List ScannedFile) : List (String × String) :=
  files.flatMap (fun f => if endswith f.relpath ".py" then fileEdgePairs f else [])

/-- The sum, over the scanned `.py` files, of the number of import
pairs extracted from each. -/
def totalImportPairs (files : List ScannedFile) : Nat :=
  (files.map (fun f =>
    if endswith f.relpath ".py" then (parse_imports f.parsed).length else 0)).sum

/-- The module identity as the specification words it: the relative
path with exactly the trailing `.py` suffix stripped and path
separators replaced by `.`, no other part of the path altered.  To be
compared against `moduleName`, which embeds the source's
`replace('.py', '')`. -/
def specModuleName (relpath : String) : String :=
  ⟨pyReplace ['/'] ['.']
    (if ['.', 'p', 'y'].isSuffixOf relpath.data then
      relpath.data.take (relpath.data.length - 3)
    else relpath.data)⟩

/-- `Occurs s t`: the node `s` occurs somewhere in the tree `t`
(at the root or nested below any chain of children). -/
inductive Occurs : Ast → Ast → Prop where
  | refl (t : Ast) : Occurs t t
  | child {s c t : Ast} : c ∈ t.children → Occurs s c → Occurs s t

/-- A scanned file `m.py` containing `from os import path, sep`:
two import pairs whose qualified names share the top-level target
`os`. -/
def fileC1 : ScannedFile :=
  ⟨"m.py", .ok "from os import path, sep" "d",
   .ok (.other [.impFrom (some "os") ["path", "sep"] []])⟩

/-- A scanned file whose relative path contains the substring `.py`
twice: `a.py.py`. -/
def fileC2 : ScannedFile := ⟨"a.py.py", .ok "" "d", .ok (.other [])⟩

/-- An unreadable file `x.py`: both the snippet read and the
open-and-parse of `parse_imports` raise. -/
def fileC4 : ScannedFile := ⟨"x.py", .err, .ioError⟩

/-- A readable file `bad.py` whose text fails to parse. -/
def fileC5 : ScannedFile := ⟨"bad.py", .ok "def f(:" "d", .syntaxError⟩

/-- A scanned file `m.py` containing the bare relative import
`from . import x`. -/
def fileC9 : ScannedFile :=
  ⟨"m.py", .ok "from . import x" "d", .ok (.other [.impFrom none ["x"] []])⟩

/-- The three-file tree of the walkthrough scenario: `pkg/a.py` with
`import pkg.b`, `pkg/b.py` with `from pkg import c`, `pkg/c.py`
empty. -/
def filesC8 : List ScannedFile :=
  [⟨"pkg/a.py", .ok "import pkg.b" "da", .ok (.other [.imp ["pkg.b"] []])⟩,
   ⟨"pkg/b.py", .ok "from pkg import c" "db", .ok (.other [.impFrom (some "pkg") ["c"] []])⟩,
   ⟨"pkg/c.py", .ok "" "dc", .ok (.other [])⟩]

theorem mem_successors {g : DiGraph} {u v : String} :
    v ∈ successors g u ↔ EdgeRel g u v := by
  simp only [successors, EdgeRel, DiGraph.edgePairs, List.mem_filterMap, List.mem_map]
  constructor
  · rintro ⟨e, he, hf⟩
    by_cases h : e.1 = u
    · simp only [h, if_pos] at hf
      exact ⟨e, he, by simp [h, Option.some_inj.mp hf]⟩
    · simp [h] at hf
  · rintro ⟨e, he, hp⟩
    refine ⟨e, he, ?_⟩
    have h1 : e.1 = u := by simpa using congrArg Prod.fst hp
    have h2 : e.2.1 = v := by simpa using congrArg Prod.snd hp
    simp [h1, h2]

theorem subset_stepR (g : DiGraph) (S : Finset String) : S ⊆ stepR g S :=
  Finset.subset_union_left

theorem subset_iterate_stepR (g : DiGraph) (S : Finset String) :
    ∀ k, S ⊆ (stepR g)^[k] S := by
  intro k
  induction k with
  | zero => simp
  | succ k ih =>
    rw [Function.iterate_succ_apply']
    exact ih.trans (subset_stepR g _)

theorem successors_subset_target {g : DiGraph} {u v : String}
    (h : v ∈ successors g u) : v ∈ targetSet g := by
  rw [mem_successors] at h
  simp only [EdgeRel, DiGraph.edgePairs, List.mem_map] at h
  obtain ⟨e, he, hp⟩ := h
  have h2 : e.2.1 = v := by simpa using congrArg Prod.snd hp
  simp only [targetSet, List.mem_toFinset, List.mem_map]
  exact ⟨e, he, h2⟩

theorem stepR_subset_target {g : DiGraph} {S : Finset String}
    (hS : S ⊆ targetSet g) : stepR g S ⊆ targetSet g := by
  unfold stepR
  refine Finset.union_subset hS (Finset.biUnion_subset.mpr ?_)
  intro u _ v hv
  exact successors_subset_target (List.mem_toFinset.mp hv)

theorem iterate_subset_target {g : DiGraph} {S : Finset String}
    (hS : S ⊆ targetSet g) : ∀ k, (stepR g)^[k] S ⊆ targetSet g := by
  intro k
  induction k with
  | zero => simpa
  | succ k ih =>
    rw [Function.iterate_succ_apply']
    exact stepR_subset_target ih

theorem iterate_stepR_sound {g : DiGraph} :
    ∀ (k : Nat) (S : Finset String) (v : String), v ∈ (stepR g)^[k] S →
      ∃ s ∈ S, Relation.ReflTransGen (EdgeRel g) s v := by
  intro k
  induction k with
  | zero => exact fun S v hv => ⟨v, by simpa using hv, Relation.ReflTransGen.refl⟩
  | succ k ih =>
    intro S v hv
    rw [Function.iterate_succ_apply] at hv
    obtain ⟨s, hs, hrtg⟩ := ih (stepR g S) v hv
    rcases Finset.mem_union.mp hs with h | h
    · exact ⟨s, h, hrtg⟩
    · obtain ⟨w, hw, hsw⟩ := Finset.mem_biUnion.mp h
      exact ⟨w, hw,
        Relation.ReflTransGen.head (mem_successors.mp (List.mem_toFinset.mp hsw)) hrtg⟩

theorem iterate_of_fix {g : DiGraph} {S : Finset String}
    (hfix : stepR g S = S) : ∀ k, (stepR g)^[k] S = S := by
  intro k
  induction k with
  | zero => rfl
  | succ k ih => rw [Function.iterate_succ_apply', ih, hfix]

theorem fix_closed {g : DiGraph} {S : Finset String} {s v : String}
    (hfix : stepR g S = S) (hs : s ∈ S)
    (h : Relation.ReflTransGen (EdgeRel g) s v) : v ∈ S := by
  induction h with
  | refl => exact hs
  | tail _ hbc ih =>
    rw [← hfix]
    exact Finset.mem_union_right _
      (Finset.mem_biUnion.mpr ⟨_, ih, List.mem_toFinset.mpr (mem_successors.mpr hbc)⟩)

theorem stepR_growth (g : DiGraph) (S : Finset String) :
    ∀ k, (∃ j, j ≤ k ∧ stepR g ((stepR g)^[j] S) = (stepR g)^[j] S) ∨
      k + S.card ≤ ((stepR g)^[k] S).card := by
  intro k
  induction k with
  | zero => right; simp
  | succ k ih =>
    rcases ih with ⟨j, hj, hfix⟩ | hcard
    · exact Or.inl ⟨j, hj.trans (Nat.le_succ k), hfix⟩
    · by_cases hfix : stepR g ((stepR g)^[k] S) = (stepR g)^[k] S
      · exact Or.inl ⟨k, Nat.le_succ k, hfix⟩
      · right
        rw [Function.iterate_succ_apply']
        have hlt : ((stepR g)^[k] S).card < (stepR g ((stepR g)^[k] S)).card :=
          Finset.card_lt_card (lt_of_le_of_ne (subset_stepR g _) (Ne.symm hfix))
        omega

theorem iterate_stepR_complete {g : DiGraph} {S : Finset String} {s v : String}
    (hS : S ⊆ targetSet g) (hs : s ∈ S)
    (h : Relation.ReflTransGen (EdgeRel g) s v) :
    v ∈ (stepR g)^[g.edges.length] S := by
  have htcard : (targetSet g).card ≤ g.edges.length := by
    have h := List.toFinset_card_le (g.edges.map (fun e => e.2.1))
    simpa [targetSet] using h
  rcases stepR_growth g S g.edges.length with ⟨j, hj, hfix⟩ | hcard
  · have hvj : v ∈ (stepR g)^[j] S :=
      fix_closed hfix (subset_iterate_stepR g S j hs) h
    have : (stepR g)^[g.edges.length] S = (stepR g)^[j] S := by
      have hsplit : g.edges.length = (g.edges.length - j) + j := (Nat.sub_add_cancel hj).symm
      rw [hsplit, Function.iterate_add_apply, iterate_of_fix hfix]
    rw [this]; exact hvj
  · exfalso
    have h1 : ((stepR g)^[g.edges.length] S).card ≤ (targetSet g).card :=
      Finset.card_le_card (iterate_subset_target hS g.edges.length)
    have h2 : 1 ≤ S.card := Finset.card_pos.mpr ⟨s, hs⟩
    omega

theorem hasCycleFrom_iff {g : DiGraph} {u : String} :
    hasCycleFrom g u = true ↔ Relation.TransGen (EdgeRel g) u u := by
  unfold hasCycleFrom
  rw [decide_eq_true_iff]
  constructor
  · intro h
    obtain ⟨s, hs, hrtg⟩ := iterate_stepR_sound g.edges.length _ u h
    exact Relation.TransGen.head' (mem_successors.mp (List.mem_toFinset.mp hs)) hrtg
  · intro h
    obtain ⟨c, hc, hrtg⟩ := Relation.TransGen.head'_iff.mp h
    exact iterate_stepR_complete
      (fun x hx => successors_subset_target (List.mem_toFinset.mp hx))
      (List.mem_toFinset.mpr (mem_successors.mpr hc))
      hrtg

theorem is_dag_iff (g : DiGraph) :
    is_directed_acyclic_graph g = true ↔
      ¬ ∃ u, Relation.TransGen (EdgeRel g) u u := by
  unfold is_directed_acyclic_graph
  rw [List.all_eq_true]
  constructor
  · rintro h ⟨u, hcyc⟩
    obtain ⟨c, hc, -⟩ := Relation.TransGen.head'_iff.mp hcyc
    simp only [EdgeRel, DiGraph.edgePairs, List.mem_map] at hc
    obtain ⟨e, he, hp⟩ := hc
    have h1 : e.1 = u := by simpa using congrArg Prod.fst hp
    have := h e he
    rw [h1, Bool.not_eq_eq_eq_not, Bool.not_true] at this
    exact absurd (hasCycleFrom_iff.mpr hcyc) (by simp [this])
  · intro h e he
    rw [Bool.not_eq_eq_eq_not, Bool.not_true]
    by_contra hne
    have : hasCycleFrom g e.1 = true := by
      cases hx : hasCycleFrom g e.1
      · exact absurd hx hne
      · rfl
    exact h ⟨e.1, hasCycleFrom_iff.mp this⟩

theorem hasNode_iff {g : DiGraph} {n : String} :
    g.hasNode n = true ↔ n ∈ nodeNames g := by
  simp [DiGraph.hasNode, nodeNames, List.any_eq_true, List.mem_map, beq_iff_eq]

theorem edges_ensureNode (g : DiGraph) (n : String) :
    (g.ensureNode n).edges = g.edges := by
  unfold DiGraph.ensureNode; split <;> rfl

theorem edges_add_node (g : DiGraph) (n s d : String) :
    (g.add_node n s d).edges = g.edges := by
  unfold DiGraph.add_node; split <;> rfl

theorem nodeNames_add_node (g : DiGraph) (n s d : String) :
    nodeNames (g.add_node n s d) =
      if g.hasNode n then nodeNames g else nodeNames g ++ [n] := by
  unfold DiGraph.add_node
  split
  · simp only [nodeNames, List.map_map]
    refine List.map_congr_left ?_
    intro e _
    simp only [Function.comp_apply]
    split
    · rfl
    · rfl
  · simp [nodeNames]

theorem nodeNames_ensureNode (g : DiGraph) (n : String) :
    nodeNames (g.ensureNode n) =
      if g.hasNode n then nodeNames g else nodeNames g ++ [n] := by
  unfold DiGraph.ensureNode
  split <;> simp [nodeNames, ‹_›]

theorem mem_nodeNames_ensureNode {g : DiGraph} {m : String} (n : String)
    (h : m ∈ nodeNames g) : m ∈ nodeNames (g.ensureNode n) := by
  rw [nodeNames_ensureNode]
  split
  · exact h
  · exact List.mem_append_left _ h

theorem self_mem_nodeNames_ensureNode (g : DiGraph) (n : String) :
    n ∈ nodeNames (g.ensureNode n) := by
  rw [nodeNames_ensureNode]
  split
  · exact hasNode_iff.mp ‹_›
  · exact List.mem_append_right _ (List.mem_singleton.mpr rfl)

theorem self_mem_nodeNames_add_node (g : DiGraph) (n s d : String) :
    n ∈ nodeNames (g.add_node n s d) := by
  rw [nodeNames_add_node]
  split
  · exact hasNode_iff.mp ‹_›
  · exact List.mem_append_right _ (List.mem_singleton.mpr rfl)

theorem nodes_add_edge (g : DiGraph) (u v sym : String) :
    (g.add_edge u v sym).nodes = ((g.ensureNode u).ensureNode v).nodes := by
  unfold DiGraph.add_edge
  split <;> rfl

theorem mem_nodeNames_add_edge {g : DiGraph} {m : String} (u v sym : String)
    (h : m ∈ nodeNames g) : m ∈ nodeNames (g.add_edge u v sym) := by
  have : nodeNames (g.add_edge u v sym) = nodeNames ((g.ensureNode u).ensureNode v) := by
    unfold nodeNames; rw [nodes_add_edge]
  rw [this]
  exact mem_nodeNames_ensureNode v (mem_nodeNames_ensureNode u h)

theorem target_mem_nodeNames_add_edge (g : DiGraph) (u v sym : String) :
    v ∈ nodeNames (g.add_edge u v sym) := by
  have : nodeNames (g.add_edge u v sym) = nodeNames ((g.ensureNode u).ensureNode v) := by
    unfold nodeNames; rw [nodes_add_edge]
  rw [this]
  exact self_mem_nodeNames_ensureNode _ v

theorem hasEdge_iff {g : DiGraph} {u v : String} :
    g.hasEdge u v = true ↔ (u, v) ∈ g.edgePairs := by
  simp only [DiGraph.hasEdge, DiGraph.edgePairs, List.any_eq_true, List.mem_map,
    Bool.and_eq_true, beq_iff_eq]
  constructor
  · rintro ⟨e, he, h1, h2⟩; exact ⟨e, he, by simp [h1, h2]⟩
  · rintro ⟨e, he, hp⟩
    have h1 : e.1 = u := by simpa using congrArg Prod.fst hp
    have h2 : e.2.1 = v := by simpa using congrArg Prod.snd hp
    exact ⟨e, he, h1, h2⟩

theorem edgePairs_ensureNode (g : DiGraph) (n : String) :
    (g.ensureNode n).edgePairs = g.edgePairs := by
  unfold DiGraph.edgePairs; rw [edges_ensureNode]

theorem edgePairs_add_node (g : DiGraph) (n s d : String) :
    (g.add_node n s d).edgePairs = g.edgePairs := by
  unfold DiGraph.edgePairs; rw [edges_add_node]

theorem edgePairs_add_edge (g : DiGraph) (u v sym : String) :
    (g.add_edge u v sym).edgePairs =
      if (u, v) ∈ g.edgePairs then g.edgePairs else g.edgePairs ++ [(u, v)] := by
  have hpairs : ((g.ensureNode u).ensureNode v).edgePairs = g.edgePairs := by
    rw [edgePairs_ensureNode, edgePairs_ensureNode]
  have hedges : ((g.ensureNode u).ensureNode v).edges = g.edges := by
    rw [edges_ensureNode, edges_ensureNode]
  unfold DiGraph.add_edge
  split
  · rename_i hcond
    have hmem : (u, v) ∈ g.edgePairs := by
      rw [← hpairs]; exact hasEdge_iff.mp hcond
    rw [if_pos hmem]
    simp only [DiGraph.edgePairs, hedges, List.map_map]
    refine List.map_congr_left ?_
    intro e _
    simp only [Function.comp_apply]
    split
    · rename_i h
      simp only [Bool.and_eq_true, beq_iff_eq] at h
      simp [h.1, h.2]
    · rfl
  · rename_i hcond
    have hmem : (u, v) ∉ g.edgePairs := by
      intro hm
      exact hcond (hasEdge_iff.mpr (hpairs.symm ▸ hm))
    rw [if_neg hmem]
    simp only [DiGraph.edgePairs, hedges, List.map_append, List.map_cons, List.map_nil]

theorem edgePairs_fold_toFinset (mn : String) :
    ∀ (l : List (String × String)) (g : DiGraph),
    ((l.foldl (fun g2 p => g2.add_edge mn (topLevel p.1) p.2) g).edgePairs).toFinset
      = g.edgePairs.toFinset ∪ (l.map (fun p => (mn, topLevel p.1))).toFinset := by
  intro l
  induction l with
  | nil => intro g; simp
  | cons p l ih =>
    intro g
    rw [List.foldl_cons, ih, edgePairs_add_edge]
    split
    · rename_i h
      rw [List.map_cons, List.toFinset_cons, Finset.union_insert,
        Finset.insert_eq_self.mpr (Finset.mem_union_left _ (List.mem_toFinset.mpr h))]
    · rw [List.toFinset_append, List.map_cons, List.toFinset_cons]
      simp [Finset.union_assoc, Finset.insert_eq]

theorem edgePairs_fold_nodup (mn : String) :
    ∀ (l : List (String × String)) (g : DiGraph), g.edgePairs.Nodup →
    ((l.foldl (fun g2 p => g2.add_edge mn (topLevel p.1) p.2) g).edgePairs).Nodup := by
  intro l
  induction l with
  | nil => exact fun g h => h
  | cons p l ih =>
    intro g h
    rw [List.foldl_cons]
    apply ih
    rw [edgePairs_add_edge]
    split
    · exact h
    · rename_i hne
      refine List.Nodup.append h (List.nodup_singleton _) ?_
      intro a ha hb
      rw [List.mem_singleton] at hb
      subst hb
      exact hne ha

theorem edgePairs_buildStep_toFinset (g : DiGraph) (f : ScannedFile) :
    (buildStep g f).edgePairs.toFinset =
      g.edgePairs.toFinset ∪
        (if endswith f.relpath ".py" then fileEdgePairs f else []).toFinset := by
  unfold buildStep
  split
  · rw [edgePairs_fold_toFinset, edgePairs_add_node]
    rfl
  · simp

theorem edgePairs_buildStep_nodup (g : DiGraph) (f : ScannedFile)
    (h : g.edgePairs.Nodup) : (buildStep g f).edgePairs.Nodup := by
  unfold buildStep
  split
  · apply edgePairs_fold_nodup
    rw [edgePairs_add_node]
    exact h
  · exact h

theorem edgePairs_build_aux :
    ∀ (files : List ScannedFile) (g : DiGraph),
    ((files.foldl buildStep g).edgePairs).toFinset =
      g.edgePairs.toFinset ∪ (allEdgePairs files).toFinset := by
  intro files
  induction files with
  | nil => intro g; simp [allEdgePairs]
  | cons f fs ih =>
    intro g
    rw [List.foldl_cons, ih, edgePairs_buildStep_toFinset]
    simp [allEdgePairs, Finset.union_assoc]

theorem edgePairs_build_nodup :
    ∀ (files : List ScannedFile) (g : DiGraph), g.edgePairs.Nodup →
    ((files.foldl buildStep g).edgePairs).Nodup := by
  intro files
  induction files with
  | nil => exact fun g h => h
  | cons f fs ih =>
    intro g h
    rw [List.foldl_cons]
    exact ih _ (edgePairs_buildStep_nodup g f h)

theorem mem_nodeNames_fold (mn : String) :
    ∀ (l : List (String × String)) (g : DiGraph) (m : String), m ∈ nodeNames g →
    m ∈ nodeNames (l.foldl (fun g2 p => g2.add_edge mn (topLevel p.1) p.2) g) := by
  intro l
  induction l with
  | nil => exact fun g m h => h
  | cons p l ih =>
    intro g m h
    rw [List.foldl_cons]
    exact ih _ _ (mem_nodeNames_add_edge _ _ _ h)

theorem target_mem_nodeNames_fold (mn : String) :
    ∀ (l : List (String × String)) (g : DiGraph) (p : String × String), p ∈ l →
    topLevel p.1 ∈ nodeNames (l.foldl (fun g2 p => g2.add_edge mn (topLevel p.1) p.2) g) := by
  intro l
  induction l with
  | nil => intro g p hp; cases hp
  | cons q l ih =>
    intro g p hp
    rw [List.foldl_cons]
    rcases List.mem_cons.mp hp with rfl | hp'
    · exact mem_nodeNames_fold mn l _ _ (target_mem_nodeNames_add_edge _ _ _ _)
    · exact ih _ _ hp'

theorem countNodes_eq (t : Ast) : countNodes t = 1 + countList t.children := by
  cases t <;> rfl

theorem countNodes_pos (t : Ast) : 1 ≤ countNodes t := by
  rw [countNodes_eq]; omega

theorem countList_append (a b : List Ast) :
    countList (a ++ b) = countList a + countList b := by
  induction a with
  | nil => simp [countList]
  | cons t a ih => simp [countList, ih]; omega

theorem countNodes_le_of_mem {t : Ast} {q : List Ast} (h : t ∈ q) :
    countNodes t ≤ countList q := by
  induction q with
  | nil => cases h
  | cons u rest ih =>
    rcases List.mem_cons.mp h with rfl | h'
    · simp [countList]
    · have := ih h'
      simp [countList]
      omega

theorem mem_walkF : ∀ (fuel : Nat) (q : List Ast) (t s : Ast),
    countList q ≤ fuel → t ∈ q → Occurs s t → s ∈ walkF fuel q := by
  intro fuel
  induction fuel with
  | zero =>
    intro q t s hle ht _
    have h1 := countNodes_pos t
    have h2 := countNodes_le_of_mem ht
    omega
  | succ fuel ih =>
    intro q t s hle ht hocc
    cases q with
    | nil => cases ht
    | cons u rest =>
      have hcount : countList (rest ++ u.children) ≤ fuel := by
        rw [countList_append]
        have hu := countNodes_eq u
        simp only [countList] at hle
        omega
      show s ∈ u :: walkF fuel (rest ++ u.children)
      rcases List.mem_cons.mp ht with rfl | ht'
      · cases hocc with
        | refl => exact List.mem_cons_self _ _
        | child hc hocc' =>
          exact List.mem_cons_of_mem _
            (ih _ _ s hcount (List.mem_append_right _ hc) hocc')
      · exact List.mem_cons_of_mem _
          (ih _ _ s hcount (List.mem_append_left _ ht') hocc)

theorem mem_walk {t s : Ast} (h : Occurs s t) : s ∈ walk t := by
  unfold walk
  refine mem_walkF (countNodes t) [t] t s ?_ (List.mem_singleton.mpr rfl) h
  simp [countList]

theorem pyReplace_strip :
    ∀ (s : List Char), ¬ ['.', 'p', 'y'] <:+: s →
    pyReplace ['.', 'p', 'y'] [] (s ++ ['.', 'p', 'y']) = s := by
  intro s
  induction s with
  | nil => intro _; decide
  | cons c s ih =>
    intro h
    have hs : ¬ ['.', 'p', 'y'] <:+: s := fun hx => h (List.infix_cons hx)
    show pyReplaceAux ['.', 'p', 'y'] [] 0 (c :: (s ++ ['.', 'p', 'y'])) = c :: s
    simp only [pyReplaceAux]
    split
    · rename_i hcond
      exfalso
      obtain ⟨hpre, -⟩ := hcond
      rw [List.isPrefixOf_iff_prefix] at hpre
      rw [List.cons_prefix_cons] at hpre
      obtain ⟨hc, hpre2⟩ := hpre
      match s with
      | [] =>
        rw [List.nil_append, List.cons_prefix_cons] at hpre2
        exact absurd hpre2.1 (by decide)
      | [a] =>
        rw [List.cons_append, List.nil_append, List.cons_prefix_cons,
          List.cons_prefix_cons] at hpre2
        exact absurd hpre2.2.1 (by decide)
      | a :: b :: s' =>
        rw [List.cons_append, List.cons_append, List.cons_prefix_cons,
          List.cons_prefix_cons] at hpre2
        obtain ⟨ha, hb, -⟩ := hpre2
        refine h (List.IsPrefix.isInfix ?_)
        subst hc; subst ha; subst hb
        exact ⟨s', rfl⟩
    · have h2 := ih hs
      unfold pyReplace at h2
      rw [h2]

theorem string_empty_append (s : String) : "" ++ s = s := by
  apply String.ext
  rw [String.data_append]
  show [] ++ s.data = s.data
  exact List.nil_append _

theorem find?_map_update (n : String) (A : NodeAttrs) :
    ∀ (l : List (String × NodeAttrs)), l.any (fun e => e.1 == n) = true →
      (((l.map (fun e => if e.1 == n then (e.1, A) else e)).find?
        (fun e => e.1 == n)).map Prod.snd) = some A := by
  intro l
  induction l with
  | nil => intro h; simp at h
  | cons e l ih =>
    intro h
    cases hc : (e.1 == n) with
    | true =>
      rw [List.map_cons, if_pos hc]
      simp [List.find?_cons, hc]
    | false =>
      rw [List.map_cons, if_neg (by simp [hc]),
        List.find?_cons_of_neg _ (by simp [hc])]
      apply ih
      simpa [List.any_cons, hc] using h

theorem lookupAttrs_add_node (g : DiGraph) (n s d : String) :
    lookupAttrs (g.add_node n s d) n = some ⟨some s, some d⟩ := by
  unfold lookupAttrs DiGraph.add_node
  split
  · rename_i h
    exact find?_map_update n ⟨some s, some d⟩ g.nodes h
  · rename_i h
    have hnone : g.nodes.find? (fun e => e.1 == n) = none := by
      rw [List.find?_eq_none]
      intro e he hc
      have hhn : g.hasNode n = true := by
        unfold DiGraph.hasNode
        exact List.any_eq_true.mpr ⟨e, he, hc⟩
      exact h hhn
    show ((g.nodes ++ [(n, (⟨some s, some d⟩ : NodeAttrs))]).find?
        (fun e => e.1 == n)).map Prod.snd = some ⟨some s, some d⟩
    rw [List.find?_append, hnone, Option.none_or]
    simp [List.find?_cons]

/-- C6: `isAcyclic()` — embedded as `is_directed_acyclic_graph` —
returns true iff the graph has no directed cycle of length ≥ 1
(`Relation.TransGen` of the edge relation from a node back to
itself); on the concrete triangle A→B, B→C, C→A it returns false, on
the chain A→B, B→C alone it returns true, and a module importing
itself (a self-edge) makes it return false. -/
theorem c6_acyclicity :
    (∀ g : DiGraph,
      is_directed_acyclic_graph g = true ↔ ¬ ∃ u, Relation.TransGen (EdgeRel g) u u) ∧
    is_directed_acyclic_graph
      (((DiGraph.empty.add_edge "A" "B" "s1").add_edge "B" "C" "s2").add_edge "C" "A" "s3")
      = false ∧
    is_directed_acyclic_graph
      ((DiGraph.empty.add_edge "A" "B" "s1").add_edge "B" "C" "s2") = true ∧
    is_directed_acyclic_graph (DiGraph.empty.add_edge "M" "M" "m") = false :=
  ⟨is_dag_iff, by decide, by decide, by decide⟩

/-- C7: scanning an empty (or missing) root directory walks no files,
so the built graph has zero nodes and zero edges, is acyclic, and
both degree maxima return the `"N/A"` sentinel instead of
crashing. -/
theorem c7_empty_scan :
    (build_import_graph []).number_of_nodes = 0 ∧
    (build_import_graph []).number_of_edges = 0 ∧
    is_directed_acyclic_graph (build_import_graph []) = true ∧
    most_imported (build_import_graph []) = "N/A" ∧
    most_dependent (build_import_graph []) = "N/A" :=
  ⟨rfl, rfl, rfl, rfl, rfl⟩

/-- C8: on the three-file tree `pkg/a.py` (`import pkg.b`),
`pkg/b.py` (`from pkg import c`), `pkg/c.py` (empty), the built graph
has exactly the node set {pkg.a, pkg, pkg.b, pkg.c}, exactly two
edges, and is acyclic. -/
theorem c8_three_file_scenario :
    (nodeNames (build_import_graph filesC8)).toFinset =
      {"pkg.a", "pkg", "pkg.b", "pkg.c"} ∧
    (build_import_graph filesC8).number_of_nodes = 4 ∧
    (build_import_graph filesC8).number_of_edges = 2 ∧
    is_directed_acyclic_graph (build_import_graph filesC8) = true := by
  decide

/-- C10: the extractor walks the entire tree, so any import node
occurring anywhere in the file — nested below functions, classes or
conditionals — contributes each of its pairs to the output. -/
theorem c10_all_imports_collected (t s : Ast) (p : String × String)
    (hocc : Occurs s t) (hp : p ∈ nodeImports s) :
    p ∈ parse_imports (.ok t) := by
  simp only [parse_imports, List.mem_flatMap]
  exact ⟨s, mem_walk hocc, hp⟩

/-- C10 witness: an `import os` nested two levels deep is collected. -/
theorem c10_witness :
    ("os", "os") ∈ parse_imports (.ok (.other [.other [.imp ["os"] []]])) :=
  c10_all_imports_collected _ _ _
    (Occurs.child (List.mem_singleton.mpr rfl)
      (Occurs.child (List.mem_singleton.mpr rfl) (Occurs.refl _)))
    (by simp [nodeImports])

/-- C1 counterexample: the single file `m.py` containing
`from os import path, sep` yields two import pairs but only one edge
(the second `add_edge` for the pair `(m, os)` overwrites the first
edge's symbol instead of adding a distinct edge), so the edge count
differs from the sum of import-pair counts. -/
theorem c1_counterexample :
    (build_import_graph [fileC1]).number_of_edges = 1 ∧
    totalImportPairs [fileC1] = 2 ∧
    (build_import_graph [fileC1]).number_of_edges ≠ totalImportPairs [fileC1] := by
  decide

/-- C1 (amended): after building, the edge count equals the number of
DISTINCT (module, top-level target) pairs arising from the scanned
modules' import pairs; import pairs sharing both the source module
and the top-level target collapse into one edge. -/
theorem c1_edge_count (files : List ScannedFile) :
    (build_import_graph files).number_of_edges = (allEdgePairs files).toFinset.card := by
  have hnd : ((build_import_graph files).edgePairs).Nodup :=
    edgePairs_build_nodup files DiGraph.empty (by simp [DiGraph.empty, DiGraph.edgePairs])
  have hset : ((build_import_graph files).edgePairs).toFinset = (allEdgePairs files).toFinset := by
    have h := edgePairs_build_aux files DiGraph.empty
    simpa [DiGraph.empty, DiGraph.edgePairs] using h
  calc (build_import_graph files).number_of_edges
      = ((build_import_graph files).edgePairs).length := by
        simp [DiGraph.edgePairs, DiGraph.number_of_edges]
    _ = ((build_import_graph files).edgePairs).toFinset.card :=
        (List.toFinset_card_of_nodup hnd).symm
    _ = (allEdgePairs files).toFinset.card := by rw [hset]

/-- C3: for each name X of a plain `import X` the extractor emits the
pair (X, X) with the submodule path kept whole; for each name A of
`from MODULE import A` it emits (MODULE ++ "." ++ A, A); and when the
module is absent (bare relative import) it emits ("." ++ A, A) — both
at the level of a single statement node and through `parse_imports`
on a file consisting of that statement. -/
theorem c3_import_pair_shapes (M : String) (names : List String) (cs : List Ast) :
    nodeImports (.imp names cs) = names.map (fun n => (n, n)) ∧
    nodeImports (.impFrom (some M) names cs) = names.map (fun n => (M ++ "." ++ n, n)) ∧
    nodeImports (.impFrom none names cs) = names.map (fun n => ("." ++ n, n)) ∧
    parse_imports (.ok (.imp names [])) = names.map (fun n => (n, n)) ∧
    parse_imports (.ok (.impFrom (some M) names [])) = names.map (fun n => (M ++ "." ++ n, n)) ∧
    parse_imports (.ok (.impFrom none names [])) = names.map (fun n => ("." ++ n, n)) := by
  have hmapnone :
      names.map (fun n => (((none : Option String).getD "") ++ "." ++ n, n)) =
        names.map (fun n => ("." ++ n, n)) := by
    refine List.map_congr_left ?_
    intro n _
    rw [show ((none : Option String).getD "") = "" from rfl, string_empty_append]
  have hw1 : walk (Ast.imp names []) = [Ast.imp names []] := rfl
  have hw2 : walk (Ast.impFrom (some M) names []) = [Ast.impFrom (some M) names []] := rfl
  have hw3 : walk (Ast.impFrom none names []) = [Ast.impFrom none names []] := rfl
  refine ⟨rfl, rfl, hmapnone, ?_, ?_, ?_⟩
  · simp [parse_imports, hw1, nodeImports]
  · simp [parse_imports, hw2, nodeImports]
  · simp only [parse_imports, hw3, List.flatMap_cons, List.flatMap_nil, List.append_nil]
    exact hmapnone

/-- C4 counterexample: the unreadable file `x.py` is NOT excluded as
a node source — the built graph still contains its module node `x`,
carrying the placeholder snippet attributes. -/
theorem c4_counterexample :
    nodeNames (build_import_graph [fileC4]) = ["x"] ∧
    lookupAttrs (build_import_graph [fileC4]) "x" =
      some ⟨some "Unable to read file", some "Description not available."⟩ := by
  decide

/-- C4 (amended): a `.py` file whose read and open-and-parse both
fail still contributes its own module node (with the placeholder
snippet and description) and contributes no edges. -/
theorem c4_unreadable_file (g : DiGraph) (f : ScannedFile)
    (hr : f.read = .err) (hp : f.parsed = .ioError)
    (he : endswith f.relpath ".py" = true) :
    (buildStep g f).edges = g.edges ∧
    moduleName f.relpath ∈ nodeNames (buildStep g f) ∧
    lookupAttrs (buildStep g f) (moduleName f.relpath) =
      some ⟨some "Unable to read file", some "Description not available."⟩ := by
  unfold buildStep
  rw [if_pos he, hp, hr]
  simp only [parse_imports, List.foldl_nil, extract_code_snippet]
  exact ⟨edges_add_node _ _ _ _, self_mem_nodeNames_add_node _ _ _ _,
    lookupAttrs_add_node _ _ _ _⟩

/-- C4 witness: the amended statement instantiated at the unreadable
file `x.py` added to the empty graph. -/
theorem c4_witness :
    (buildStep DiGraph.empty fileC4).edges = DiGraph.empty.edges ∧
    moduleName fileC4.relpath ∈ nodeNames (buildStep DiGraph.empty fileC4) ∧
    lookupAttrs (buildStep DiGraph.empty fileC4) (moduleName fileC4.relpath) =
      some ⟨some "Unable to read file", some "Description not available."⟩ :=
  c4_unreadable_file DiGraph.empty fileC4 rfl rfl (by decide)

/-- C5: a file whose text fails to parse yields an empty import
sequence, the scan goes on to fold the remaining files rather than
aborting, and the file still contributes its module node while
adding no edges. -/
theorem c5_syntax_error_recovery :
    parse_imports .syntaxError = [] ∧
    ∀ (g : DiGraph) (f : ScannedFile), f.parsed = .syntaxError →
      endswith f.relpath ".py" = true →
      ((buildStep g f).edges = g.edges ∧
        moduleName f.relpath ∈ nodeNames (buildStep g f) ∧
        ∀ (fs : List ScannedFile),
          (f :: fs).foldl buildStep g = fs.foldl buildStep (buildStep g f)) := by
  refine ⟨rfl, ?_⟩
  intro g f hp he
  have h1 : (buildStep g f).edges = g.edges := by
    unfold buildStep
    rw [if_pos he, hp]
    simp only [parse_imports, List.foldl_nil]
    exact edges_add_node _ _ _ _
  have h2 : moduleName f.relpath ∈ nodeNames (buildStep g f) := by
    unfold buildStep
    rw [if_pos he, hp]
    simp only [parse_imports, List.foldl_nil]
    exact self_mem_nodeNames_add_node _ _ _ _
  exact ⟨h1, h2, fun fs => rfl⟩

/-- C5 witness: the statement instantiated at the unparsable file
`bad.py` added to the empty graph, followed by an empty remainder of
the scan. -/
theorem c5_witness :
    (buildStep DiGraph.empty fileC5).edges = DiGraph.empty.edges ∧
    moduleName fileC5.relpath ∈ nodeNames (buildStep DiGraph.empty fileC5) ∧
    ([fileC5].foldl buildStep DiGraph.empty = [].foldl buildStep (buildStep DiGraph.empty fileC5)) := by
  have h := c5_syntax_error_recovery.2 DiGraph.empty fileC5 rfl (by decide)
  exact ⟨h.1, h.2.1, h.2.2 []⟩

/-- C2 counterexample: the file `a.py.py` is a scanned `.py` file,
yet its module node is named `a` — the source's `replace('.py', '')`
removed both occurrences of `.py` — while stripping exactly the
trailing suffix would give `a.py`. -/
theorem c2_counterexample :
    nodeNames (build_import_graph [fileC2]) = ["a"] ∧
    moduleName "a.py.py" = "a" ∧
    specModuleName "a.py.py" = "a.py" ∧
    moduleName "a.py.py" ≠ specModuleName "a.py.py" := by
  decide

/-- C2 (amended): the module identity removes EVERY occurrence of the
substring `.py` from the relative path (then replaces separators by
`.`), not only the trailing suffix; whenever `.py` occurs nowhere in
the path except as the trailing suffix, this coincides with the
spec's description, embedded as `specModuleName`. -/
theorem c2_module_name (stem : List Char) (h : ¬ ['.', 'p', 'y'] <:+: stem) :
    moduleName ⟨stem ++ ['.', 'p', 'y']⟩ = specModuleName ⟨stem ++ ['.', 'p', 'y']⟩ := by
  unfold moduleName specModuleName
  have hd : (String.mk (stem ++ ['.', 'p', 'y'])).data = stem ++ ['.', 'p', 'y'] := rfl
  rw [hd]
  rw [pyReplace_strip stem h]
  have hsfx : ['.', 'p', 'y'].isSuffixOf (stem ++ ['.', 'p', 'y']) = true := by
    rw [List.isSuffixOf_iff_suffix]
    exact List.suffix_append stem _
  rw [if_pos hsfx]
  have hlen : (stem ++ ['.', 'p', 'y']).length - 3 = stem.length := by
    simp [List.length_append]
  rw [hlen, List.take_left' rfl]

/-- C2 witness: the amended statement instantiated at the path
`pkg/a.py`, whose stem contains no `.py`. -/
theorem c2_witness :
    moduleName ⟨"pkg/a".data ++ ['.', 'p', 'y']⟩ =
      specModuleName ⟨"pkg/a".data ++ ['.', 'p', 'y']⟩ :=
  c2_module_name "pkg/a".data (by decide)

/-- C9: a bare relative import `from . import x` yields the qualified
name `"." ++ x`, whose top-level segment (`split('.')[0]`) is the
empty string, so the builder records an edge from the module to a
node named `""` — which is then a node of the graph. -/
theorem c9_bare_relative_import (x : String) :
    ((none : Option String).getD "") ++ "." ++ x = "." ++ x ∧
    topLevel ("." ++ x) = "" ∧
    ∀ (g : DiGraph) (f : ScannedFile) (t : Ast),
      f.parsed = .ok t → Occurs (.impFrom none [x] []) t →
      endswith f.relpath ".py" = true →
      (("." ++ x, x) ∈ parse_imports f.parsed ∧
        (moduleName f.relpath, "") ∈ ((buildStep g f).edgePairs).toFinset ∧
        "" ∈ nodeNames (buildStep g f)) := by
  have hq : ((none : Option String).getD "") ++ "." ++ x = "." ++ x := by
    rw [show ((none : Option String).getD "") = "" from rfl, string_empty_append]
  have htl : topLevel ("." ++ x) = "" := by
    apply String.ext
    rfl
  refine ⟨hq, htl, ?_⟩
  intro g f t hp hocc he
  have hmem : ("." ++ x, x) ∈ nodeImports (.impFrom none [x] []) := by
    simp only [nodeImports, List.map_cons, List.map_nil, List.mem_singleton]
    rw [hq]
  have hpair : ("." ++ x, x) ∈ parse_imports f.parsed := by
    rw [hp]
    simp only [parse_imports, List.mem_flatMap]
    exact ⟨_, mem_walk hocc, hmem⟩
  refine ⟨hpair, ?_, ?_⟩
  · unfold buildStep
    rw [if_pos he, edgePairs_fold_toFinset]
    apply Finset.mem_union_right
    rw [List.mem_toFinset]
    apply List.mem_map.mpr
    exact ⟨("." ++ x, x), hpair, by rw [htl]⟩
  · unfold buildStep
    rw [if_pos he]
    have h2 := target_mem_nodeNames_fold (moduleName f.relpath) (parse_imports f.parsed)
      (g.add_node (moduleName f.relpath)
        (extract_code_snippet f.read).1 (extract_code_snippet f.read).2)
      ("." ++ x, x) hpair
    rw [htl] at h2
    exact h2

/-- C9 witness: the statement instantiated at the file `m.py`
containing exactly `from . import x`, added to the empty graph. -/
theorem c9_witness :
    ("." ++ "x", "x") ∈ parse_imports fileC9.parsed ∧
    (moduleName fileC9.relpath, "") ∈ ((buildStep DiGraph.empty fileC9).edgePairs).toFinset ∧
    "" ∈ nodeNames (buildStep DiGraph.empty fileC9) :=
  (c9_bare_relative_import "x").2.2 DiGraph.empty fileC9 (.other [.impFrom none ["x"] []]) rfl
    (Occurs.child (List.mem_singleton.mpr rfl) (Occurs.refl _)) (by decide)
